import Mathlib

/-!
Verification of the dice-sampling core of the catan-tracker repository
(`src/app/lib/adaptiveDice.ts` together with `src/app/lib/diceConstants.ts`).

The embedding translates the TypeScript source into Lean:
* JavaScript numbers for probabilities, EMA errors and tuning parameters are
  modelled as exact rationals `ℚ`; `Math.exp` is modelled as an abstract
  function `mexp : ℚ → ℚ` (the floor/replay theorems hold for any nonnegative
  such function, in particular for the real exponential).
* The eleven-slot arrays indexed by outcome index `0..10` become functions
  `Fin 11 → ℚ` (or `Fin 11 → ℕ` for counts).
* `throw` becomes `Except String`; the RNG is abstracted by the index it
  ultimately selects (for the alias sampler) or by the bounded integers it
  returns (for the Fisher–Yates shuffle and `CryptoRNG.int`).
-/

/-! ### Outcome domain (diceConstants.ts) -/

/-- `DICE_OUTCOMES = [2,…,12]`, i.e. `SUMS` in adaptiveDice.ts; slot `k`
holds the outcome `k + 2`. -/
def SUMS : Fin 11 → ℕ := ![2, 3, 4, 5, 6, 7, 8, 9, 10, 11, 12]

/-- `TWO_DICE_COUNTS`: fair two-dice multiplicities for sums 2..12 (total 36). -/
def TWO_DICE_COUNTS : Fin 11 → ℕ := ![1, 2, 3, 4, 5, 6, 5, 4, 3, 2, 1]

/-- `TARGET_P`: target probabilities `p[k] = TWO_DICE_COUNTS[k] / 36`. -/
def TARGET_P : Fin 11 → ℚ := fun k => (TWO_DICE_COUNTS k : ℚ) / 36

/-- `isDiceOutcome` from diceConstants.ts: membership of `DICE_OUTCOMES`. -/
def isDiceOutcome (n : ℕ) : Prop := 2 ≤ n ∧ n ≤ 12

instance : DecidablePred isDiceOutcome := fun n => by
  unfold isDiceOutcome; infer_instance

lemma SUMS_eq_add_two (k : Fin 11) : SUMS k = (k : ℕ) + 2 := by
  fin_cases k <;> rfl

lemma TARGET_P_nonneg (k : Fin 11) : 0 ≤ TARGET_P k := by
  fin_cases k <;> norm_num [TARGET_P, TWO_DICE_COUNTS]

lemma TARGET_P_sum : (∑ k, TARGET_P k) = 1 := by
  simp [Fin.sum_univ_succ, TARGET_P, TWO_DICE_COUNTS,
    Matrix.cons_val_zero, Matrix.cons_val_succ]
  norm_num

/-! ### AdaptiveDice.computeWeights (adaptiveDice.ts lines 418–431)

The body is decomposed into one definition per local variable of the source:
`rawWeights` is the local `w` before normalization, `normWeights` the value of
`w` after the `if (!(wSum > 0))` branch, `mixedQ` the local `q`, and
`computeWeights` the final assignment `this.q = q.map(x => x / qSum)`. -/

/-- `w = this.e.map((ek, k) => TARGET_P[k] * Math.exp(-this.eta * ek))`. -/
def rawWeights (eta : ℚ) (mexp : ℚ → ℚ) (e : Fin 11 → ℚ) : Fin 11 → ℚ :=
  fun k => TARGET_P k * mexp (-(eta * e k))

/-- `if (!(wSum > 0)) w = TARGET_P.slice(); else w = w.map(x => x / wSum)`. -/
def normWeights (eta : ℚ) (mexp : ℚ → ℚ) (e : Fin 11 → ℚ) : Fin 11 → ℚ :=
  if 0 < ∑ k, rawWeights eta mexp e k then
    fun k => rawWeights eta mexp e k / ∑ j, rawWeights eta mexp e j
  else TARGET_P

/-- `q = w.map((wk, k) => (1 - epsilon) * wk + epsilon * TARGET_P[k])`. -/
def mixedQ (eta epsilon : ℚ) (mexp : ℚ → ℚ) (e : Fin 11 → ℚ) : Fin 11 → ℚ :=
  fun k => (1 - epsilon) * normWeights eta mexp e k + epsilon * TARGET_P k

/-- `this.q = q.map(x => x / qSum)` where `qSum = q.reduce((a,b) => a+b, 0)`. -/
def computeWeights (eta epsilon : ℚ) (mexp : ℚ → ℚ) (e : Fin 11 → ℚ) :
    Fin 11 → ℚ :=
  fun k => mixedQ eta epsilon mexp e k / ∑ j, mixedQ eta epsilon mexp e j

lemma normWeights_nonneg (eta : ℚ) (mexp : ℚ → ℚ) (e : Fin 11 → ℚ)
    (hm : ∀ x, 0 ≤ mexp x) (k : Fin 11) : 0 ≤ normWeights eta mexp e k := by
  unfold normWeights
  split
  · exact div_nonneg (mul_nonneg (TARGET_P_nonneg k) (hm _))
      (le_of_lt (by assumption))
  · exact TARGET_P_nonneg k

lemma normWeights_sum (eta : ℚ) (mexp : ℚ → ℚ) (e : Fin 11 → ℚ) :
    (∑ k, normWeights eta mexp e k) = 1 := by
  unfold normWeights
  split
  · rw [← Finset.sum_div]
    exact div_self (ne_of_gt (by assumption))
  · exact TARGET_P_sum

lemma mixedQ_sum (eta epsilon : ℚ) (mexp : ℚ → ℚ) (e : Fin 11 → ℚ) :
    (∑ k, mixedQ eta epsilon mexp e k) = 1 := by
  unfold mixedQ
  rw [Finset.sum_add_distrib, ← Finset.mul_sum, ← Finset.mul_sum,
    normWeights_sum, TARGET_P_sum]
  ring

/-- Core of the floor invariant: the recomputed distribution dominates
`ε · p` pointwise and sums to `1`. -/
lemma computeWeights_floor (eta epsilon : ℚ) (mexp : ℚ → ℚ)
    (hm : ∀ x, 0 ≤ mexp x) (hε : 0 ≤ epsilon ∧ epsilon ≤ 1) (e : Fin 11 → ℚ) :
    (∀ k, epsilon * TARGET_P k ≤ computeWeights eta epsilon mexp e k) ∧
      (∑ k, computeWeights eta epsilon mexp e k) = 1 := by
  have hsum := mixedQ_sum eta epsilon mexp e
  constructor
  · intro k
    have h1 : epsilon * TARGET_P k ≤ mixedQ eta epsilon mexp e k := by
      unfold mixedQ
      have : 0 ≤ (1 - epsilon) * normWeights eta mexp e k :=
        mul_nonneg (by linarith [hε.2]) (normWeights_nonneg eta mexp e hm k)
      linarith
    unfold computeWeights
    rw [hsum, div_one]
    exact h1
  · unfold computeWeights
    rw [← Finset.sum_div, hsum, div_one]

/-! ### AdaptiveDice roll history replay (lines 373–415)

`getCounts` counts how often outcome `k + 2` occurs in a history
(`counts[idx]++` with `idx = roll - 2`; writes at an out-of-range `idx`
never touch the slots `0..10` that are subsequently read).
`rebuildFromRolls` is the fold of `replayStep` over the history: each step
increments the count of the processed roll and `t`, then applies the EMA
update `e[k] ← (1-β)·e[k] + β·(counts[k]/t − p[k])` at every index. -/

/-- `getCounts` (lines 374–381). -/
def getCounts (rolls : List ℕ) : Fin 11 → ℕ :=
  fun k => rolls.count ((k : ℕ) + 2)

/-- Loop state of the replay loop in `rebuildFromRolls`: the EMA vector `e`,
the running `counts` array and the running roll count `t`. -/
structure ReplaySt where
  e : Fin 11 → ℚ
  counts : Fin 11 → ℕ
  t : ℕ

/-- One iteration of the `for (const roll of rollsToProcess)` loop
(lines 400–411). -/
def replayStep (beta : ℚ) (s : ReplaySt) (r : ℕ) : ReplaySt :=
  let counts : Fin 11 → ℕ :=
    fun k => if (k : ℕ) + 2 = r then s.counts k + 1 else s.counts k
  let t := s.t + 1
  { e := fun k =>
      (1 - beta) * s.e k + beta * ((counts k : ℚ) / (t : ℚ) - TARGET_P k),
    counts := counts, t := t }

/-- Initial replay state: `e.fill(0)`, fresh `counts`, `t = 0`. -/
def replayInit : ReplaySt := ⟨fun _ => 0, fun _ => 0, 0⟩

/-- The EMA error vector `rebuildFromRolls` computes for a history
(lines 384–411); on the empty history it is the zero vector. -/
def rebuildE (beta : ℚ) (rolls : List ℕ) : Fin 11 → ℚ :=
  (rolls.foldl (replayStep beta) replayInit).e

lemma replay_counts (beta : ℚ) (rolls : List ℕ) : ∀ s0 : ReplaySt,
    (rolls.foldl (replayStep beta) s0).counts
        = (fun k => s0.counts k + getCounts rolls k) ∧
      (rolls.foldl (replayStep beta) s0).t = s0.t + rolls.length := by
  induction rolls with
  | nil => intro s0; simp [getCounts]
  | cons r rest ih =>
    intro s0
    rw [List.foldl_cons]
    obtain ⟨hc, ht⟩ := ih (replayStep beta s0 r)
    constructor
    · rw [hc]
      funext k
      simp only [replayStep, getCounts, List.count_cons]
      by_cases h : (k : ℕ) + 2 = r
      · simp only [if_pos h, if_pos (beq_iff_eq.mpr h.symm)]
        omega
      · have : ¬(r == (k : ℕ) + 2) = true := by
          simp only [beq_iff_eq]; omega
        simp only [if_neg h, if_neg this]
        omega
    · rw [ht]; simp [replayStep]; omega

/-- Replay agrees with the incremental update of `roll()`: processing one
more roll applies exactly the EMA update with the new counts and the new
length. -/
lemma rebuildE_concat (beta : ℚ) (h : List ℕ) (r : ℕ) :
    rebuildE beta (h ++ [r]) = fun k =>
      (1 - beta) * rebuildE beta h k +
        beta * ((getCounts (h ++ [r]) k : ℚ) / ((h.length + 1 : ℕ) : ℚ)
          - TARGET_P k) := by
  funext k
  unfold rebuildE
  rw [List.foldl_append]
  obtain ⟨hc, ht⟩ := replay_counts beta h replayInit
  simp only [List.foldl_cons, List.foldl_nil]
  simp only [replayStep, hc, ht]
  have hcount : (if (k : ℕ) + 2 = r
        then replayInit.counts k + getCounts h k + 1
        else replayInit.counts k + getCounts h k)
      = getCounts (h ++ [r]) k := by
    simp only [getCounts, List.count_append, List.count_cons,
      List.count_nil, replayInit]
    by_cases hr : (k : ℕ) + 2 = r
    · simp only [if_pos hr, if_pos (beq_iff_eq.mpr hr.symm)]; omega
    · have : ¬(r == (k : ℕ) + 2) = true := by
        simp only [beq_iff_eq]; omega
      simp only [if_neg hr, if_neg this]; omega
  rw [hcount]
  simp [replayInit]

/-! ### The AdaptiveDice class (lines 319–493) -/

/-- State of an `AdaptiveDice` instance: tuning parameters, roll history,
EMA error vector `e` and last used distribution `q`. -/
structure AdaptiveDice where
  beta : ℚ
  eta : ℚ
  epsilon : ℚ
  rolls : List ℕ
  e : Fin 11 → ℚ
  q : Fin 11 → ℚ

/-- Serialized `AdaptiveDiceState` (mode tag `"adaptive"` omitted; all other
fields are optional exactly as in the interface). -/
structure AdaptiveDiceState where
  beta : Option ℚ
  eta : Option ℚ
  epsilon : Option ℚ
  rolls : Option (List ℕ)

/-- The `AdaptiveDice` constructor (lines 331–367) on explicit parameter
values: validate `beta`, `eta`, `epsilon` (throwing, never clamping), start
from `e = 0`, `q = TARGET_P`, and rebuild both from the roll history when it
is nonempty.  `mexp` models `Math.exp`. -/
def AdaptiveDice.mkCore (mexp : ℚ → ℚ) (beta eta epsilon : ℚ)
    (rolls : List ℕ) : Except String AdaptiveDice :=
  if ¬(0 < beta ∧ beta ≤ 1) then .error "beta must be in (0,1]"
  else if ¬(0 ≤ eta) then .error "eta must be >= 0"
  else if ¬(0 ≤ epsilon ∧ epsilon ≤ 1) then .error "epsilon must be in [0,1]"
  else .ok
    { beta := beta, eta := eta, epsilon := epsilon, rolls := rolls,
      e := rebuildE beta rolls,
      q := if rolls = [] then TARGET_P
           else computeWeights eta epsilon mexp (rebuildE beta rolls) }

/-- Constructor from a serialized state: missing fields fall back to the
defaults `β = 0.4`, `η = 20`, `ε = 0.01`, empty history. -/
def AdaptiveDice.mkFromState (mexp : ℚ → ℚ) (s : AdaptiveDiceState) :
    Except String AdaptiveDice :=
  AdaptiveDice.mkCore mexp (s.beta.getD (2/5)) (s.eta.getD 20)
    (s.epsilon.getD (1/100)) (s.rolls.getD [])

/-- `AdaptiveDice.toState` (lines 466–474). -/
def AdaptiveDice.toState (d : AdaptiveDice) : AdaptiveDiceState :=
  ⟨some d.beta, some d.eta, some d.epsilon, some d.rolls⟩

/-- `AdaptiveDice.roll` (lines 442–463).  The alias-sampler draw is
abstracted by the index `idx` it returns: append `SUMS[idx]` to the history,
update every EMA slot from the new counts and length, and recompute `q`. -/
def AdaptiveDice.roll (mexp : ℚ → ℚ) (d : AdaptiveDice) (idx : Fin 11) :
    AdaptiveDice × ℕ :=
  let sum := SUMS idx
  let rolls : List ℕ := d.rolls ++ [sum]
  let e : Fin 11 → ℚ := fun k =>
    (1 - d.beta) * d.e k +
      d.beta * ((getCounts rolls k : ℚ) / (rolls.length : ℚ) - TARGET_P k)
  ({ d with
      rolls := rolls
      e := e
      q := computeWeights d.eta d.epsilon mexp e }, sum)

/-- `AdaptiveDice.undo` (lines 481–492): fail on an empty history, else drop
the last roll and rebuild `e` and `q` by replaying the remaining history from
scratch. -/
def AdaptiveDice.undo (mexp : ℚ → ℚ) (d : AdaptiveDice) :
    Except String AdaptiveDice :=
  if d.rolls = [] then .error "Cannot undo: no rolls have been made"
  else
    let rolls := d.rolls.dropLast
    let e := rebuildE d.beta rolls
    .ok { d with
      rolls := rolls
      e := e
      q := if rolls = [] then TARGET_P
           else computeWeights d.eta d.epsilon mexp e }

/-- Class invariant of `AdaptiveDice`: the parameters passed validation and
the cached `e` and `q` are exactly what replaying the roll history yields.
Established by the constructor and preserved by `roll` and `undo`. -/
def AdaptiveDice.wf (mexp : ℚ → ℚ) (d : AdaptiveDice) : Prop :=
  (0 < d.beta ∧ d.beta ≤ 1) ∧ 0 ≤ d.eta ∧ (0 ≤ d.epsilon ∧ d.epsilon ≤ 1) ∧
    d.e = rebuildE d.beta d.rolls ∧
    d.q = (if d.rolls = [] then TARGET_P
           else computeWeights d.eta d.epsilon mexp (rebuildE d.beta d.rolls))

lemma wf_mkCore (mexp : ℚ → ℚ) (beta eta epsilon : ℚ) (rolls : List ℕ)
    (d : AdaptiveDice)
    (h : AdaptiveDice.mkCore mexp beta eta epsilon rolls = .ok d) :
    d.wf mexp := by
  unfold AdaptiveDice.mkCore at h
  split at h
  · exact absurd h (by simp)
  · split at h
    · exact absurd h (by simp)
    · split at h
      · exact absurd h (by simp)
      · rename_i h1 h2 h3
        obtain rfl : _ = d := Except.ok.inj h
        refine ⟨by tauto, by tauto, by tauto, rfl, rfl⟩

lemma wf_roll (mexp : ℚ → ℚ) (d : AdaptiveDice) (idx : Fin 11)
    (h : d.wf mexp) : ((d.roll mexp idx).1).wf mexp := by
  obtain ⟨h1, h2, h3, he, hq⟩ := h
  refine ⟨h1, h2, h3, ?_, ?_⟩
  · show (fun k => (1 - d.beta) * d.e k + d.beta *
        ((getCounts (d.rolls ++ [SUMS idx]) k : ℚ) /
          ((d.rolls ++ [SUMS idx]).length : ℚ) - TARGET_P k))
      = rebuildE d.beta (d.rolls ++ [SUMS idx])
    rw [rebuildE_concat, he]
    simp [List.length_append]
  · have hne : d.rolls ++ [SUMS idx] ≠ [] := by simp
    show computeWeights d.eta d.epsilon mexp (fun k =>
        (1 - d.beta) * d.e k + d.beta *
          ((getCounts (d.rolls ++ [SUMS idx]) k : ℚ) /
            ((d.rolls ++ [SUMS idx]).length : ℚ) - TARGET_P k))
      = if d.rolls ++ [SUMS idx] = [] then TARGET_P
        else computeWeights d.eta d.epsilon mexp
          (rebuildE d.beta (d.rolls ++ [SUMS idx]))
    rw [if_neg hne, rebuildE_concat, he]
    simp [List.length_append]

lemma wf_undo (mexp : ℚ → ℚ) (d d' : AdaptiveDice)
    (h : d.wf mexp) (hu : d.undo mexp = .ok d') : d'.wf mexp := by
  obtain ⟨h1, h2, h3, _, _⟩ := h
  unfold AdaptiveDice.undo at hu
  split at hu
  · exact absurd hu (by simp)
  · obtain rfl : _ = d' := Except.ok.inj hu
    exact ⟨h1, h2, h3, rfl, rfl⟩

/-! ### Claims C1–C4 -/

/-- C1: for every `AdaptiveDice` with `β ∈ (0,1]`, `η ≥ 0`, `ε ∈ [0,1]`,
after every `roll()` the sampling distribution `q` satisfies
`q[k] ≥ ε·p[k]` for every outcome index `k`, and in particular the vector
handed to `Alias.build` sums to 1 and is never all-zero.  (`mexp` is any
nonnegative model of `Math.exp`.) -/
theorem adaptive_floor_invariant (mexp : ℚ → ℚ) (hm : ∀ x, 0 ≤ mexp x)
    (d : AdaptiveDice) (_hbeta : 0 < d.beta ∧ d.beta ≤ 1) (_heta : 0 ≤ d.eta)
    (heps : 0 ≤ d.epsilon ∧ d.epsilon ≤ 1) (idx : Fin 11) :
    (∀ k, d.epsilon * TARGET_P k ≤ ((d.roll mexp idx).1).q k) ∧
      (∑ k, ((d.roll mexp idx).1).q k) = 1 ∧
      ¬(∀ k, ((d.roll mexp idx).1).q k = 0) := by
  have hq : ((d.roll mexp idx).1).q
      = computeWeights d.eta d.epsilon mexp ((d.roll mexp idx).1).e := rfl
  obtain ⟨hfl, hsum⟩ :=
    computeWeights_floor d.eta d.epsilon mexp hm heps ((d.roll mexp idx).1).e
  rw [hq]
  refine ⟨hfl, hsum, fun hz => ?_⟩
  have h0 : (∑ k, computeWeights d.eta d.epsilon mexp
      ((d.roll mexp idx).1).e k) = 0 :=
    Finset.sum_eq_zero (fun k _ => hz k)
  rw [h0] at hsum
  exact zero_ne_one hsum

/-- C1 witness: the floor invariant instantiated on a fresh instance with
the default parameters and `mexp = 1`. -/
theorem adaptive_floor_invariant_witness :
    (∀ x : ℚ, 0 ≤ (fun _ : ℚ => (1 : ℚ)) x) ∧
      ∀ k, (1/100 : ℚ) * TARGET_P k ≤
        ((AdaptiveDice.roll (fun _ => 1)
          ⟨2/5, 20, 1/100, [], fun _ => 0, TARGET_P⟩ 0).1).q k :=
  ⟨fun _ => by norm_num,
    (adaptive_floor_invariant (fun _ => 1) (fun _ => by norm_num)
      ⟨2/5, 20, 1/100, [], fun _ => 0, TARGET_P⟩
      ⟨by norm_num, by norm_num⟩ (by norm_num)
      ⟨by norm_num, by norm_num⟩ 0).1⟩

/-- The incremental EMA update performed by `roll()` lands exactly on the
full replay of the extended history, provided the pre-roll vector was itself
the replay of the pre-roll history. -/
lemma roll_e_rebuild (mexp : ℚ → ℚ) (d : AdaptiveDice) (idx : Fin 11)
    (h : d.e = rebuildE d.beta d.rolls) :
    ((d.roll mexp idx).1).e = rebuildE d.beta ((d.roll mexp idx).1).rolls := by
  show (fun k => (1 - d.beta) * d.e k + d.beta *
      ((getCounts (d.rolls ++ [SUMS idx]) k : ℚ) /
        ((d.rolls ++ [SUMS idx]).length : ℚ) - TARGET_P k))
    = rebuildE d.beta (d.rolls ++ [SUMS idx])
  rw [rebuildE_concat, h]
  simp [List.length_append]

/-- C2: each `roll()` updates the EMA error at every index `k` by
`e[k] ← (1−β)·e[k] + β·(c[k]/t − p[k])` with `t` the post-append length and
`c` the post-append counts; and this incremental update coincides with the
full replay (`rebuildFromRolls`) of the extended history whenever the
pre-roll vector was the replay of the pre-roll history. -/
theorem adaptive_ema_update (mexp : ℚ → ℚ) (d : AdaptiveDice) (idx : Fin 11)
    (h : d.e = rebuildE d.beta d.rolls) :
    (∀ k, ((d.roll mexp idx).1).e k
        = (1 - d.beta) * d.e k + d.beta *
          ((getCounts ((d.roll mexp idx).1).rolls k : ℚ) /
            (((d.roll mexp idx).1).rolls.length : ℚ) - TARGET_P k)) ∧
      ((d.roll mexp idx).1).e = rebuildE d.beta ((d.roll mexp idx).1).rolls :=
  ⟨fun _ => rfl, roll_e_rebuild mexp d idx h⟩

/-- C2 witness: the EMA update equations instantiated on a fresh instance
(one roll of outcome 7). -/
theorem adaptive_ema_update_witness :
    ((⟨2/5, 20, 1/100, [], fun _ => 0, TARGET_P⟩ :
        AdaptiveDice).e = rebuildE (2/5) []) ∧
      ((AdaptiveDice.roll (fun _ => 1)
          ⟨2/5, 20, 1/100, [], fun _ => 0, TARGET_P⟩ 5).1).e
        = rebuildE (2/5)
          ((AdaptiveDice.roll (fun _ => 1)
            ⟨2/5, 20, 1/100, [], fun _ => 0, TARGET_P⟩ 5).1).rolls :=
  ⟨rfl,
    (adaptive_ema_update (fun _ => 1)
      ⟨2/5, 20, 1/100, [], fun _ => 0, TARGET_P⟩ 5 rfl).2⟩

/-- C3: on any well-formed `AdaptiveDice` state, `roll()` followed by
`undo()` restores the whole instance — in particular the roll history and
the sampling distribution `q` — whatever index the intervening roll drew. -/
theorem adaptive_roll_then_undo (mexp : ℚ → ℚ) (d : AdaptiveDice)
    (h : d.wf mexp) (idx : Fin 11) :
    AdaptiveDice.undo mexp ((d.roll mexp idx).1) = .ok d := by
  obtain ⟨h1, h2, h3, he, hq⟩ := h
  obtain ⟨beta, eta, epsilon, rolls, e, q⟩ := d
  simp only at he hq
  unfold AdaptiveDice.undo AdaptiveDice.roll
  have hne : rolls ++ [SUMS idx] ≠ [] := by simp
  simp only [hne, if_neg, List.dropLast_concat, ite_false]
  rw [← hq, ← he]

/-- C3 witness: roll-then-undo on a concrete well-formed instance. -/
theorem adaptive_roll_then_undo_witness :
    AdaptiveDice.wf (fun _ => 1)
        ⟨2/5, 20, 1/100, [], fun _ => 0, TARGET_P⟩ ∧
      AdaptiveDice.undo (fun _ => 1)
        ((AdaptiveDice.roll (fun _ => 1)
          ⟨2/5, 20, 1/100, [], fun _ => 0, TARGET_P⟩ 3).1)
        = .ok ⟨2/5, 20, 1/100, [], fun _ => 0, TARGET_P⟩ := by
  have hwf : AdaptiveDice.wf (fun _ => 1)
      ⟨2/5, 20, 1/100, [], fun _ => 0, TARGET_P⟩ :=
    ⟨⟨by norm_num, by norm_num⟩, by norm_num, ⟨by norm_num, by norm_num⟩,
      rfl, rfl⟩
  exact ⟨hwf, adaptive_roll_then_undo (fun _ => 1) _ hwf 3⟩

/-- C4: reconstructing an `AdaptiveDice` from `toState()` (which replays the
embedded roll history from empty state with the same parameters) returns the
instance unchanged — in particular with exactly the same sampling
distribution `q` — for every well-formed instance, i.e. for every state the
constructor, `roll` and `undo` can produce (`wf` is established by
`wf_mkCore` and preserved by `wf_roll` and `wf_undo`). -/
theorem adaptive_restore_from_state (mexp : ℚ → ℚ) (d : AdaptiveDice)
    (h : d.wf mexp) :
    AdaptiveDice.mkFromState mexp d.toState = .ok d := by
  obtain ⟨h1, h2, h3, he, hq⟩ := h
  obtain ⟨beta, eta, epsilon, rolls, e, q⟩ := d
  simp only at he hq
  unfold AdaptiveDice.mkFromState AdaptiveDice.toState AdaptiveDice.mkCore
  simp only [Option.getD_some]
  rw [if_neg (not_not_intro h1), if_neg (not_not_intro h2),
    if_neg (not_not_intro h3), ← hq, ← he]

/-- C4 witness: restore-from-state on a concrete well-formed instance. -/
theorem adaptive_restore_from_state_witness :
    AdaptiveDice.wf (fun _ => 1)
        ⟨2/5, 20, 1/100, [], fun _ => 0, TARGET_P⟩ ∧
      AdaptiveDice.mkFromState (fun _ => 1)
        (AdaptiveDice.toState ⟨2/5, 20, 1/100, [], fun _ => 0, TARGET_P⟩)
        = .ok ⟨2/5, 20, 1/100, [], fun _ => 0, TARGET_P⟩ := by
  have hwf : AdaptiveDice.wf (fun _ => 1)
      ⟨2/5, 20, 1/100, [], fun _ => 0, TARGET_P⟩ :=
    ⟨⟨by norm_num, by norm_num⟩, by norm_num, ⟨by norm_num, by norm_num⟩,
      rfl, rfl⟩
  exact ⟨hwf, adaptive_restore_from_state (fun _ => 1) _ hwf⟩

/-! ### ShuffleBagDice (lines 505–589)

The bag is a growing list `rollsBag`; `extend` appends one freshly shuffled
block of `bagSize` outcomes and never discards earlier blocks; `roll` reads
`rollsBag[ptr++]`, extending first when the pointer has reached the end.
The Fisher–Yates loop draws `rng.int(i + 1)` at loop index `i`; an `extend`
call is therefore driven by a function `j : ℕ → ℕ` giving that draw, and a
run of `n` rolls by a stream `js : ℕ → ℕ → ℕ` of such functions (one per
roll).  `swapL` is the JS destructuring swap
`[bag[a], bag[b]] = [bag[b], bag[a]]`; out-of-range indices leave the list
unchanged (the real RNG always supplies in-range indices). -/

/-- State of a `ShuffleBagDice` instance. -/
structure ShuffleBagDice where
  bagSize : ℕ
  rollsBag : List ℕ
  ptr : ℕ
deriving DecidableEq

/-- The `ShuffleBagDice` constructor (lines 516–540): `bagSize` must be a
positive integer and a multiple of 36; the optional serialized `rolls` and
`bagPtr` are restored verbatim (unvalidated). -/
def ShuffleBagDice.mkCore (bagSize : ℤ) (rolls : Option (List ℕ))
    (bagPtr : Option ℕ) : Except String ShuffleBagDice :=
  if bagSize ≤ 0 then .error "bagSize must be a positive integer"
  else if bagSize % 36 ≠ 0 then
    .error "bagSize should be a multiple of 36 to preserve exact proportions"
  else .ok
    { bagSize := bagSize.toNat
      rollsBag := rolls.getD []
      ptr := bagPtr.getD 0 }

/-- One fresh block: each `SUMS[i]` repeated `TWO_DICE_COUNTS[i] * mult`
times, in index order (the push loop of `extend`, lines 549–551). -/
def baseBag (mult : ℕ) : List ℕ :=
  (List.finRange 11).flatMap
    (fun i => List.replicate (TWO_DICE_COUNTS i * mult) (SUMS i))

/-- JS destructuring swap of two list positions; identity when either index
is out of range. -/
def swapL (l : List ℕ) (a b : ℕ) : List ℕ :=
  match l[a]?, l[b]? with
  | some x, some y => (l.set a y).set b x
  | _, _ => l

/-- The Fisher–Yates loop of `extend` (lines 553–560), counting `i` down
from `bagSize - 1` to `1`: swap positions `offset + i` and
`offset + j i` where `j i` models `rng.int(i + 1)`. -/
def fyLoop (j : ℕ → ℕ) (offset : ℕ) : List ℕ → ℕ → List ℕ
  | l, 0 => l
  | l, i + 1 => fyLoop j offset (swapL l (offset + (i + 1)) (offset + j (i + 1))) i

/-- `ShuffleBagDice.extend` (lines 546–561): append one block and shuffle it
in place. -/
def ShuffleBagDice.extend (j : ℕ → ℕ) (d : ShuffleBagDice) : ShuffleBagDice :=
  let mult := d.bagSize / 36
  let offset := d.rollsBag.length
  { d with rollsBag := fyLoop j offset (d.rollsBag ++ baseBag mult) (d.bagSize - 1) }

/-- `ShuffleBagDice.roll` (lines 564–567): extend when the pointer has
consumed the whole bag, then return `rollsBag[ptr++]`. -/
def ShuffleBagDice.roll (j : ℕ → ℕ) (d : ShuffleBagDice) :
    ShuffleBagDice × ℕ :=
  let d1 := if d.rollsBag.length ≤ d.ptr then d.extend j else d
  ({ d1 with ptr := d1.ptr + 1 }, d1.rollsBag.getD d1.ptr 0)

/-- `ShuffleBagDice.undo` (lines 583–588): fails only when `ptr === 0`,
otherwise moves the pointer back one position. -/
def ShuffleBagDice.undo (d : ShuffleBagDice) : Except String ShuffleBagDice :=
  if d.ptr = 0 then .error "Cannot undo: at start of bag"
  else .ok { d with ptr := d.ptr - 1 }

/-- `n` consecutive `roll()` calls, collecting the returned outcomes;
`js m` supplies the Fisher–Yates draws of the `extend` (if any) performed by
the `m`-th roll. -/
def ShuffleBagDice.rollN (js : ℕ → ℕ → ℕ) : ℕ → ShuffleBagDice →
    ShuffleBagDice × List ℕ
  | 0, d => (d, [])
  | n + 1, d =>
    let p := d.roll (js 0)
    let rest := ShuffleBagDice.rollN (fun m => js (m + 1)) n p.1
    (rest.1, p.2 :: rest.2)

lemma swapL_count (l : List ℕ) (a b v : ℕ) :
    (swapL l a b).count v = l.count v := by
  unfold swapL
  split
  · rename_i x y ha hb
    obtain ⟨hal, hax⟩ := List.getElem?_eq_some.mp ha
    obtain ⟨hbl, hby⟩ := List.getElem?_eq_some.mp hb
    have hbl' : b < (l.set a y).length := by simpa using hbl
    have hmx : x = v → 1 ≤ l.count v := by
      intro hv
      exact List.one_le_count_iff.mpr (hv ▸ hax ▸ List.getElem_mem hal)
    have hmy : y = v → 1 ≤ l.count v := by
      intro hv
      exact List.one_le_count_iff.mpr (hv ▸ hby ▸ List.getElem_mem hbl)
    rw [List.count_set _ _ _ _ hbl', List.count_set _ _ _ _ hal]
    by_cases hab : a = b
    · subst hab
      have hxy : x = y := by rw [← hax, ← hby]
      subst hxy
      rw [List.getElem_set_self hbl', hax]
      by_cases hxv : x = v
      · have hc := hmx hxv
        simp only [hxv, beq_self_eq_true, if_true]
        omega
      · simp only [beq_eq_false_iff_ne.mpr hxv, Bool.false_eq_true, if_false]
        omega
    · rw [List.getElem_set_ne hab, hby, hax]
      by_cases hxv : x = v <;> by_cases hyv : y = v
      · have hc := hmx hxv
        simp only [hxv, hyv, beq_self_eq_true, if_true]
        omega
      · have hc := hmx hxv
        simp only [hxv, beq_self_eq_true, if_true,
          beq_eq_false_iff_ne.mpr hyv, Bool.false_eq_true, if_false]
        omega
      · have hc := hmy hyv
        simp only [hyv, beq_self_eq_true, if_true,
          beq_eq_false_iff_ne.mpr hxv, Bool.false_eq_true, if_false]
        omega
      · simp only [beq_eq_false_iff_ne.mpr hxv,
          beq_eq_false_iff_ne.mpr hyv, Bool.false_eq_true, if_false]
        omega
  · rfl

lemma fyLoop_count (j : ℕ → ℕ) (offset : ℕ) (l : List ℕ) (n v : ℕ) :
    (fyLoop j offset l n).count v = l.count v := by
  induction n generalizing l with
  | zero => rfl
  | succ i ih => rw [fyLoop, ih, swapL_count]

lemma swapL_length (l : List ℕ) (a b : ℕ) :
    (swapL l a b).length = l.length := by
  unfold swapL
  split <;> simp

lemma fyLoop_length (j : ℕ → ℕ) (offset : ℕ) (l : List ℕ) (n : ℕ) :
    (fyLoop j offset l n).length = l.length := by
  induction n generalizing l with
  | zero => rfl
  | succ i ih => rw [fyLoop, ih, swapL_length]

lemma baseBag_one_length : (baseBag 1).length = 36 := by decide

lemma baseBag_one_count (k : Fin 11) :
    (baseBag 1).count ((k : ℕ) + 2) = TWO_DICE_COUNTS k := by
  fin_cases k <;> decide

/-- As long as the pointer never reaches the end of the bag, `rollN` simply
reads `n` consecutive bag entries and advances the pointer. -/
lemma rollN_no_extend (n : ℕ) : ∀ (js : ℕ → ℕ → ℕ) (d : ShuffleBagDice),
    d.ptr + n ≤ d.rollsBag.length →
    d.rollN js n = ({ d with ptr := d.ptr + n },
      (d.rollsBag.drop d.ptr).take n) := by
  induction n with
  | zero => intro js d _; simp [ShuffleBagDice.rollN]
  | succ m ih =>
    intro js d hle
    have hlt : d.ptr < d.rollsBag.length := by omega
    have hroll : d.roll (js 0) = ({ d with ptr := d.ptr + 1 },
        d.rollsBag.getD d.ptr 0) := by
      unfold ShuffleBagDice.roll
      rw [if_neg (by omega)]
    rw [ShuffleBagDice.rollN, hroll]
    have hrec := ih (fun m => js (m + 1)) { d with ptr := d.ptr + 1 }
      (by simpa using by omega)
    rw [hrec]
    have hdrop : d.rollsBag.drop d.ptr
        = d.rollsBag[d.ptr] :: d.rollsBag.drop (d.ptr + 1) :=
      List.drop_eq_getElem_cons hlt
    have hgetD : d.rollsBag.getD d.ptr 0 = d.rollsBag[d.ptr] := by
      simp [List.getD_eq_getElem?_getD, List.getElem?_eq_getElem hlt]
    simp only [hgetD, hdrop, List.take_succ_cons]
    have harith : d.ptr + 1 + m = d.ptr + (m + 1) := by omega
    rw [harith]

/-- Unfolding lemma for one step of `rollN`. -/
lemma rollN_succ (js : ℕ → ℕ → ℕ) (n : ℕ) (d : ShuffleBagDice) :
    ShuffleBagDice.rollN js (n + 1) d
      = ((ShuffleBagDice.rollN (fun m => js (m + 1)) n (d.roll (js 0)).1).1,
         (d.roll (js 0)).2 ::
           (ShuffleBagDice.rollN (fun m => js (m + 1)) n (d.roll (js 0)).1).2) :=
  rfl

set_option maxRecDepth 100000 in
/-- C5: a freshly constructed `ShuffleBagDice` with `bagSize = 36` returns,
over its first 36 `roll()` calls and for every sequence of Fisher–Yates RNG
draws, exactly the canonical multiset
`{2:1, 3:2, 4:3, 5:4, 6:5, 7:6, 8:5, 9:4, 10:3, 11:2, 12:1}`:
the outcome list has length 36 and outcome `k + 2` occurs exactly
`TWO_DICE_COUNTS[k]` times. -/
theorem shuffle_bag_first_36 (js : ℕ → ℕ → ℕ) :
    ShuffleBagDice.mkCore 36 none none = .ok ⟨36, [], 0⟩ ∧
      ((ShuffleBagDice.rollN js 36 ⟨36, [], 0⟩).2).length = 36 ∧
      ∀ k : Fin 11,
        ((ShuffleBagDice.rollN js 36 ⟨36, [], 0⟩).2).count ((k : ℕ) + 2)
          = TWO_DICE_COUNTS k := by
  have hlen : (fyLoop (js 0) 0 ([] ++ baseBag 1) 35).length = 36 := by
    rw [fyLoop_length, List.nil_append, baseBag_one_length]
  have hroll : ShuffleBagDice.roll (js 0) ⟨36, [], 0⟩
      = (⟨36, fyLoop (js 0) 0 ([] ++ baseBag 1) 35, 1⟩,
         (fyLoop (js 0) 0 ([] ++ baseBag 1) 35).getD 0 0) := by
    unfold ShuffleBagDice.roll ShuffleBagDice.extend
    norm_num
  have h36 : ShuffleBagDice.rollN js 36 ⟨36, [], 0⟩
      = ShuffleBagDice.rollN js (35 + 1) ⟨36, [], 0⟩ := rfl
  have hsplit := rollN_succ js 35 ⟨36, [], 0⟩
  rw [hroll] at hsplit
  have hrest := rollN_no_extend 35 (fun m => js (m + 1))
    ⟨36, fyLoop (js 0) 0 ([] ++ baseBag 1) 35, 1⟩ (by simp only [hlen]; omega)
  rw [h36, hsplit, hrest]
  have h0 : 0 < (fyLoop (js 0) 0 ([] ++ baseBag 1) 35).length := by omega
  have hcons : (fyLoop (js 0) 0 ([] ++ baseBag 1) 35).drop 0
      = (fyLoop (js 0) 0 ([] ++ baseBag 1) 35)[0] ::
        (fyLoop (js 0) 0 ([] ++ baseBag 1) 35).drop 1 :=
    List.drop_eq_getElem_cons h0
  rw [List.drop_zero] at hcons
  have hgd : (fyLoop (js 0) 0 ([] ++ baseBag 1) 35).getD 0 0
      = (fyLoop (js 0) 0 ([] ++ baseBag 1) 35)[0] := by
    rw [List.getD_eq_getElem?_getD, List.getElem?_eq_getElem h0]
    rfl
  have htk : ((fyLoop (js 0) 0 ([] ++ baseBag 1) 35).drop 1).take 35
      = (fyLoop (js 0) 0 ([] ++ baseBag 1) 35).drop 1 :=
    List.take_of_length_le (by rw [List.length_drop]; omega)
  have houts : (fyLoop (js 0) 0 ([] ++ baseBag 1) 35).getD 0 0 ::
        (((fyLoop (js 0) 0 ([] ++ baseBag 1) 35).drop 1).take 35)
      = fyLoop (js 0) 0 ([] ++ baseBag 1) 35 := by
    rw [hgd, htk, ← hcons]
  simp only
  rw [houts]
  refine ⟨rfl, hlen, fun k => ?_⟩
  rw [fyLoop_count, List.nil_append, baseBag_one_count]

set_option maxRecDepth 1000000 in
set_option maxHeartbeats 1000000 in
/-- C6 counterexample: rolling a fresh 36-bag 37 times (with the RNG draws
that leave the Fisher–Yates shuffle as the identity) appends a second bag;
the resulting instance has `ptr = 37`, and `undo()` succeeds twice in a row,
crossing the bag-refill boundary at position 36: at `ptr = 36` — the start
of the second bag's drawn region — `undo()` does not fail, contradicting the
claim that undo never crosses a bag boundary. -/
theorem shuffle_undo_crosses_bag_boundary :
    (ShuffleBagDice.rollN (fun _ i => i) 37 ⟨36, [], 0⟩).1
        = ⟨36, baseBag 1 ++ baseBag 1, 37⟩ ∧
      ShuffleBagDice.undo ⟨36, baseBag 1 ++ baseBag 1, 37⟩
        = .ok ⟨36, baseBag 1 ++ baseBag 1, 36⟩ ∧
      ShuffleBagDice.undo ⟨36, baseBag 1 ++ baseBag 1, 36⟩
        = .ok ⟨36, baseBag 1 ++ baseBag 1, 35⟩ :=
  ⟨by decide, rfl, rfl⟩

/-- C6 (amended): `ShuffleBagDice.undo()` fails exactly when the pointer is
at position 0 of the whole (cumulative) bag list; at any later position —
including positions that cross a bag-refill boundary, since `extend` keeps
all earlier bags — it decrements the pointer by one, and the next `roll()`
returns the undone value again and restores the pre-undo state. -/
theorem shuffle_undo_ptr_semantics (d : ShuffleBagDice)
    (hlen : d.ptr ≤ d.rollsBag.length) :
    (d.ptr = 0 → d.undo = .error "Cannot undo: at start of bag") ∧
      (0 < d.ptr →
        d.undo = .ok { d with ptr := d.ptr - 1 } ∧
          ∀ j : ℕ → ℕ, ShuffleBagDice.roll j { d with ptr := d.ptr - 1 }
            = (d, d.rollsBag.getD (d.ptr - 1) 0)) := by
  refine ⟨fun h0 => ?_, fun hpos => ⟨?_, fun j => ?_⟩⟩
  · unfold ShuffleBagDice.undo
    rw [if_pos h0]
  · unfold ShuffleBagDice.undo
    rw [if_neg (by omega)]
  · unfold ShuffleBagDice.roll
    rw [if_neg (by simp only; omega)]
    have harith : d.ptr - 1 + 1 = d.ptr := by omega
    simp only [harith]

/-- C6 amended-claim witness: undo at pointer position 1 of a fresh bag. -/
theorem shuffle_undo_ptr_semantics_witness :
    (⟨36, baseBag 1, 1⟩ : ShuffleBagDice).ptr ≤ (baseBag 1).length ∧
      0 < (⟨36, baseBag 1, 1⟩ : ShuffleBagDice).ptr ∧
      ShuffleBagDice.undo ⟨36, baseBag 1, 1⟩ = .ok ⟨36, baseBag 1, 0⟩ :=
  ⟨by decide, by decide,
    ((shuffle_undo_ptr_semantics ⟨36, baseBag 1, 1⟩ (by decide)).2
      (by decide)).1⟩

/-! ### CryptoRNG.int (lines 176–192)

The generator is a stream of `Uint32Array` words: `word g i = g i % 2^32` is
the `i`-th value `getRandomValues` produces.  `rejectLoop` is the
`do … while (x >= limit)` rejection loop with explicit fuel (the real loop
terminates with probability 1; every terminating run is a run of
`rejectLoop` with enough fuel). -/

/-- `range = 2 ** 32`. -/
def UINT32 : ℕ := 4294967296

/-- The `i`-th 32-bit generator output. -/
def word (g : ℕ → ℕ) (i : ℕ) : ℕ := g i % UINT32

/-- `limit = Math.floor(range / maxExclusive) * maxExclusive`. -/
def rejectLimit (n : ℕ) : ℕ := UINT32 / n * n

/-- The rejection loop: draw words starting at stream position `i`,
returning the first one below `limit`. -/
def rejectLoop (g : ℕ → ℕ) (limit : ℕ) : ℕ → ℕ → Option ℕ
  | 0, _ => none
  | fuel + 1, i =>
    if word g i < limit then some (word g i)
    else rejectLoop g limit fuel (i + 1)

/-- `CryptoRNG.int(maxExclusive)` (lines 176–192): throw unless
`maxExclusive` is a positive integer, then rejection-sample a word below
`limit` and return it `% maxExclusive`. -/
def CryptoRNG.int (g : ℕ → ℕ) (fuel i : ℕ) (n : ℤ) :
    Except String (Option ℕ) :=
  if n ≤ 0 then
    .error "int(maxExclusive): maxExclusive must be a positive integer"
  else .ok ((rejectLoop g (rejectLimit n.toNat) fuel i).map
    (fun x => x % n.toNat))

lemma rejectLoop_spec (g : ℕ → ℕ) (limit : ℕ) : ∀ (fuel i r : ℕ),
    rejectLoop g limit fuel i = some r →
    r < limit ∧ ∃ k, i ≤ k ∧ r = word g k ∧ word g k < limit ∧
      ∀ m, i ≤ m → m < k → limit ≤ word g m := by
  intro fuel
  induction fuel with
  | zero => intro i r h; exact absurd h (by simp [rejectLoop])
  | succ f ih =>
    intro i r h
    rw [rejectLoop] at h
    split at h
    · rename_i hlt
      obtain rfl : word g i = r := Option.some.inj h
      exact ⟨hlt, i, le_refl i, rfl, hlt, fun m hm1 hm2 => absurd hm2 (by omega)⟩
    · rename_i hge
      obtain ⟨h1, k, hk1, hk2, hk3, hk4⟩ := ih (i + 1) r h
      refine ⟨h1, k, by omega, hk2, hk3, fun m hm1 hm2 => ?_⟩
      by_cases hmi : m = i
      · subst hmi; omega
      · exact hk4 m (by omega) hm2

/-- In `[0, q*n)` every residue `r < n` has exactly `q` representatives:
the arithmetic heart of "rejection sampling removes modulo bias". -/
lemma card_filter_mod (n r : ℕ) (hr : r < n) : ∀ q : ℕ,
    ((Finset.range (q * n)).filter (fun v => v % n = r)).card = q := by
  intro q
  induction q with
  | zero => simp
  | succ t ih =>
    have hmul : (t + 1) * n = t * n + n := Nat.succ_mul t n
    have hsplit : Finset.range ((t + 1) * n)
        = Finset.range (t * n) ∪ Finset.Ico (t * n) (t * n + n) := by
      rw [hmul, Finset.range_eq_Ico,
        Finset.Ico_union_Ico_eq_Ico (Nat.zero_le _) (Nat.le_add_right _ _)]
    have hdisj : Disjoint
        ((Finset.range (t * n)).filter (fun v => v % n = r))
        ((Finset.Ico (t * n) (t * n + n)).filter (fun v => v % n = r)) := by
      apply Finset.disjoint_filter_filter
      rw [Finset.range_eq_Ico]
      exact Finset.Ico_disjoint_Ico_consecutive 0 (t * n) (t * n + n)
    have hsingle : (Finset.Ico (t * n) (t * n + n)).filter
        (fun v => v % n = r) = {t * n + r} := by
      ext v
      simp only [Finset.mem_filter, Finset.mem_Ico, Finset.mem_singleton]
      constructor
      · rintro ⟨⟨hv1, hv2⟩, hv3⟩
        have hv2b : v < (t + 1) * n := by rw [Nat.succ_mul]; exact hv2
        have hdiv : v / n = t := Nat.div_eq_of_lt_le hv1 hv2b
        have hvm := Nat.div_add_mod v n
        rw [hdiv, hv3] at hvm
        rw [Nat.mul_comm] at hvm
        exact hvm.symm
      · rintro rfl
        refine ⟨⟨Nat.le_add_right _ _, by omega⟩, ?_⟩
        rw [Nat.add_comm, Nat.add_mul_mod_self_right]
        exact Nat.mod_eq_of_lt hr
    rw [hsplit, Finset.filter_union, Finset.card_union_of_disjoint hdisj,
      ih, hsingle, Finset.card_singleton]

/-- C8: `CryptoRNG.int(n)` throws unless `n` is a positive integer; any
value it returns is the first generator word below
`limit = floor(2^32 / n) * n` (all earlier words having been rejected),
taken `% n`, hence lies in `[0, n)`; and every residue `r < n` has exactly
`floor(2^32 / n)` accepted words mapping to it, so a uniform generator
induces a uniform result (no modulo bias). -/
theorem cryptoRNG_int_spec (g : ℕ → ℕ) (fuel i : ℕ) (n : ℤ) :
    (n ≤ 0 → CryptoRNG.int g fuel i n
        = .error "int(maxExclusive): maxExclusive must be a positive integer") ∧
      (0 < n → ∀ r, CryptoRNG.int g fuel i n = .ok (some r) →
        (r : ℤ) < n ∧ ∃ k, i ≤ k ∧ r = word g k % n.toNat ∧
          word g k < rejectLimit n.toNat ∧
          ∀ m, i ≤ m → m < k → rejectLimit n.toNat ≤ word g m) ∧
      (0 < n → ∀ r : ℕ, (r : ℤ) < n →
        ((Finset.range (rejectLimit n.toNat)).filter
          (fun v => v % n.toNat = r)).card = UINT32 / n.toNat) := by
  refine ⟨fun hn => ?_, fun hn r h => ?_, fun hn r hr => ?_⟩
  · unfold CryptoRNG.int
    rw [if_pos hn]
  · unfold CryptoRNG.int at h
    rw [if_neg (by omega)] at h
    have h2 := Except.ok.inj h
    obtain ⟨x, hx1, hx2⟩ := Option.map_eq_some'.mp h2
    obtain ⟨hlt, k, hk1, hk2, hk3, hk4⟩ := rejectLoop_spec g _ fuel i x hx1
    have hn' : 0 < n.toNat := by omega
    refine ⟨?_, k, hk1, by rw [← hx2, hk2], hk3, hk4⟩
    have hmod : x % n.toNat < n.toNat := Nat.mod_lt x hn'
    rw [← hx2]
    omega
  · have hn' : 0 < n.toNat := by omega
    have hr' : r < n.toNat := by omega
    have hcard := card_filter_mod n.toNat r hr' (UINT32 / n.toNat)
    unfold rejectLimit
    exact hcard

/-- C8 witness: the error branch at `maxExclusive = -5`. -/
theorem cryptoRNG_int_spec_witness :
    ((-5 : ℤ) ≤ 0) ∧ CryptoRNG.int (fun _ => 0) 1 0 (-5)
      = .error "int(maxExclusive): maxExclusive must be a positive integer" :=
  ⟨by norm_num, (cryptoRNG_int_spec (fun _ => 0) 1 0 (-5)).1 (by norm_num)⟩

/-! ### RealDice (lines 262–310) and DiceManager (lines 669–721) -/

/-- State of a `RealDice` instance: just the roll history. -/
structure RealDice where
  rolls : List ℕ

/-- `RealDice.addRoll` (lines 291–293): push the outcome. -/
def RealDice.addRoll (d : RealDice) (outcome : ℕ) : RealDice :=
  ⟨d.rolls ++ [outcome]⟩

/-- `RealDice.undo` (lines 296–301): throw on an empty history, else pop. -/
def RealDice.undo (d : RealDice) : Except String RealDice :=
  if d.rolls = [] then .error "Cannot undo: no rolls have been made"
  else .ok ⟨d.rolls.dropLast⟩

/-- C9: for the real-life and adaptive strategies, `undo()` throws exactly
when the roll history is empty (never a silent no-op), and a successful
`undo` removes exactly the last roll; since each operation validates its
precondition before constructing any new state, a failed call leaves the
history, the EMA vector and the distribution untouched. -/
theorem undo_empty_history_errors (r : RealDice) (mexp : ℚ → ℚ)
    (a : AdaptiveDice) :
    (RealDice.undo r = .error "Cannot undo: no rolls have been made"
        ↔ r.rolls = []) ∧
      (AdaptiveDice.undo mexp a
          = .error "Cannot undo: no rolls have been made" ↔ a.rolls = []) ∧
      (∀ r2, RealDice.undo r = .ok r2 →
        r.rolls ≠ [] ∧ r2.rolls = r.rolls.dropLast) ∧
      (∀ a2, AdaptiveDice.undo mexp a = .ok a2 →
        a.rolls ≠ [] ∧ a2.rolls = a.rolls.dropLast) := by
  refine ⟨?_, ?_, fun r2 h => ?_, fun a2 h => ?_⟩
  · by_cases h : r.rolls = [] <;> simp [RealDice.undo, h]
  · by_cases h : a.rolls = [] <;> simp [AdaptiveDice.undo, h]
  · unfold RealDice.undo at h
    split at h
    · exact absurd h (by simp)
    · rename_i hne
      obtain rfl := Except.ok.inj h
      exact ⟨hne, rfl⟩
  · unfold AdaptiveDice.undo at h
    split at h
    · exact absurd h (by simp)
    · rename_i hne
      obtain rfl := Except.ok.inj h
      exact ⟨hne, rfl⟩

/-- C9 witness: undo on empty real-life and adaptive histories errors. -/
theorem undo_empty_history_errors_witness :
    RealDice.undo ⟨[]⟩ = .error "Cannot undo: no rolls have been made" ∧
      AdaptiveDice.undo (fun _ => 1)
          ⟨2/5, 20, 1/100, [], fun _ => 0, TARGET_P⟩
        = .error "Cannot undo: no rolls have been made" :=
  ⟨(undo_empty_history_errors ⟨[]⟩ (fun _ => 1)
      ⟨2/5, 20, 1/100, [], fun _ => 0, TARGET_P⟩).1.mpr rfl,
    (undo_empty_history_errors ⟨[]⟩ (fun _ => 1)
      ⟨2/5, 20, 1/100, [], fun _ => 0, TARGET_P⟩).2.1.mpr rfl⟩

/-- The strategy instance held by a `DiceManager` (the union
`RealDice | AdaptiveDice | ShuffleBagDice` of `getDice`). -/
inductive DiceInstance where
  | real (d : RealDice)
  | adaptive (d : AdaptiveDice)
  | shuffleBag (d : ShuffleBagDice)

/-- `DiceManager.addRoll` (lines 698–705): delegate to `RealDice.addRoll`
when the instance is real-life, otherwise throw (leaving `this.state`
unassigned). -/
def DiceManager.addRoll : DiceInstance → ℕ → Except String DiceInstance
  | .real d, o => .ok (.real (d.addRoll o))
  | .adaptive _, _ => .error "addRoll is only supported in real-life dice mode"
  | .shuffleBag _, _ =>
    .error "addRoll is only supported in real-life dice mode"

/-- C10: `DiceManager.addRoll(outcome)` appends the outcome to the roll
history in real-life mode and throws (so the manager state is never
reassigned) for the adaptive and shuffle-bag strategies. -/
theorem diceManager_addRoll (o : ℕ) :
    (∀ d : RealDice, DiceManager.addRoll (.real d) o
        = .ok (.real ⟨d.rolls ++ [o]⟩)) ∧
      (∀ a : AdaptiveDice, DiceManager.addRoll (.adaptive a) o
        = .error "addRoll is only supported in real-life dice mode") ∧
      (∀ s : ShuffleBagDice, DiceManager.addRoll (.shuffleBag s) o
        = .error "addRoll is only supported in real-life dice mode") :=
  ⟨fun _ => rfl, fun _ => rfl, fun _ => rfl⟩

/-- C7 counterexample: restoring an adaptive state whose embedded roll
history contains the out-of-domain outcome 13 succeeds — the constructor
performs no domain validation on `rolls`, contradicting the claim that
out-of-domain outcome values cause a construction error. -/
theorem construction_accepts_out_of_domain_rolls :
    ¬ isDiceOutcome 13 ∧
      (AdaptiveDice.mkCore (fun _ => 1) (1/2) 20 (1/100) [13]).toOption.isSome
        = true := by
  refine ⟨by decide, ?_⟩
  unfold AdaptiveDice.mkCore
  rw [if_neg (not_not_intro ⟨by norm_num, by norm_num⟩),
    if_neg (not_not_intro (by norm_num)),
    if_neg (not_not_intro ⟨by norm_num, by norm_num⟩)]
  rfl

/-- C7 (amended): construction and restore throw — never clamp — for every
invalid `beta`, `eta`, `epsilon` and for every `bagSize` that is not a
positive multiple of 36; out-of-domain outcome values in the embedded rolls
history, however, are accepted without validation. -/
theorem construction_validation (mexp : ℚ → ℚ) (beta eta epsilon : ℚ)
    (rolls : List ℕ) (bagSize : ℤ) (brolls : Option (List ℕ))
    (bptr : Option ℕ) :
    (¬(0 < beta ∧ beta ≤ 1) →
      AdaptiveDice.mkCore mexp beta eta epsilon rolls
        = .error "beta must be in (0,1]") ∧
      ((0 < beta ∧ beta ≤ 1) → ¬(0 ≤ eta) →
        AdaptiveDice.mkCore mexp beta eta epsilon rolls
          = .error "eta must be >= 0") ∧
      ((0 < beta ∧ beta ≤ 1) → 0 ≤ eta → ¬(0 ≤ epsilon ∧ epsilon ≤ 1) →
        AdaptiveDice.mkCore mexp beta eta epsilon rolls
          = .error "epsilon must be in [0,1]") ∧
      (bagSize ≤ 0 → ShuffleBagDice.mkCore bagSize brolls bptr
        = .error "bagSize must be a positive integer") ∧
      (0 < bagSize → bagSize % 36 ≠ 0 →
        ShuffleBagDice.mkCore bagSize brolls bptr
          = .error
            "bagSize should be a multiple of 36 to preserve exact proportions") := by
  refine ⟨fun h1 => ?_, fun h1 h2 => ?_, fun h1 h2 h3 => ?_,
    fun h4 => ?_, fun h4 h5 => ?_⟩
  · unfold AdaptiveDice.mkCore
    rw [if_pos h1]
  · unfold AdaptiveDice.mkCore
    rw [if_neg (not_not_intro h1), if_pos h2]
  · unfold AdaptiveDice.mkCore
    rw [if_neg (not_not_intro h1), if_neg (not_not_intro h2), if_pos h3]
  · unfold ShuffleBagDice.mkCore
    rw [if_pos h4]
  · unfold ShuffleBagDice.mkCore
    rw [if_neg (by omega), if_pos h5]

/-- C7 witness: `beta = 0` is rejected with the beta error, `bagSize = 10`
with the multiple-of-36 error. -/
theorem construction_validation_witness :
    ¬((0:ℚ) < 0 ∧ (0:ℚ) ≤ 1) ∧
      AdaptiveDice.mkCore (fun _ => 1) 0 20 (1/100) []
        = .error "beta must be in (0,1]" ∧
      ShuffleBagDice.mkCore 10 none none
        = .error
          "bagSize should be a multiple of 36 to preserve exact proportions" := by
  have h : ¬((0:ℚ) < 0 ∧ (0:ℚ) ≤ 1) := by norm_num
  exact ⟨h,
    (construction_validation (fun _ => 1) 0 20 (1/100) [] 36 none none).1 h,
    ((construction_validation (fun _ => 1) 0 20 (1/100) [] 10 none
      none).2.2.2.2) (by norm_num) (by norm_num)⟩
